import Mathlib

/-!
Verification of the top-k similarity retrieval routine in
`langchain_memory/memory_patterns.py`.

The source code under study:

  def _dot(a: list[float], b: list[float]) -> float:
      return sum(x * y for x, y in zip(a, b))

  def retrieve_relevant(query: str, top_k: int = 3) -> list[str]:
      _ensure_embeddings()
      q_embed = embeddings.embed_query(query)
      scored = [(_dot(q_embed, vec), text) for vec, text in _snippet_embeddings]
      scored.sort(key=lambda x: -x[0])
      return [text for _, text in scored[:top_k]]

We embed the pure ranking core: the corpus (`_snippet_embeddings`, a list
of (embedding, text) pairs) and the already-embedded query vector are
explicit inputs; the external embedding provider is out of scope.  Scores
are modelled over ℚ.  Python's `list.sort` is a stable sort; a stable sort
with respect to a total preorder key is uniquely determined, so we model it
with Mathlib's stable `List.insertionSort`.  Python's slice `l[:k]` is
modelled by `pySlice`, including its negative-index semantics.
-/

/-- Embedding of `_dot`: `sum(x * y for x, y in zip(a, b))`.  Python's
`zip` stops at the shorter list and `sum` accumulates left-to-right from
`0`, which is exactly `List.zip` followed by a left fold. -/
def dotProd (a b : List ℚ) : ℚ :=
  (a.zip b).foldl (fun acc p => acc + p.1 * p.2) 0

/-- Python's slice `l[:k]` for an arbitrary integer `k`: for `k ≥ 0` it is
the first `k` elements; for `k < 0` it is all but the last `|k|` elements,
clamped at the empty list. -/
def pySlice (l : List α) (k : Int) : List α :=
  if 0 ≤ k then l.take k.toNat else l.take (l.length - (-k).toNat)

/-- The comparison realised by `scored.sort(key=lambda x: -x[0])`:
Python sorts ascending by the key `-score`, i.e. `p` comes no later than
`q` iff `q`'s score is at most `p`'s. -/
def scoreLe (p q : ℚ × String) : Prop := q.1 ≤ p.1

instance : DecidableRel scoreLe :=
  fun p q => inferInstanceAs (Decidable (q.1 ≤ p.1))

instance : IsTotal (ℚ × String) scoreLe := ⟨fun p q => le_total q.1 p.1⟩

instance : IsTrans (ℚ × String) scoreLe :=
  ⟨fun _ _ _ h₁ h₂ => le_trans h₂ h₁⟩

/-- The scored list built by the comprehension
`[(_dot(q_embed, vec), text) for vec, text in _snippet_embeddings]`. -/
def scoredOf (corpus : List (List ℚ × String)) (qEmbed : List ℚ) :
    List (ℚ × String) :=
  corpus.map (fun e => (dotProd qEmbed e.1, e.2))

/-- The ranking core of `retrieve_relevant`, given the precomputed corpus
and query embedding: score every entry, sort stably by descending score,
and apply the Python slice `scored[:top_k]`. -/
def rankScored (corpus : List (List ℚ × String)) (qEmbed : List ℚ)
    (topK : Int) : List (ℚ × String) :=
  pySlice ((scoredOf corpus qEmbed).insertionSort scoreLe) topK

/-- The error kinds named by the specification for `rank`. -/
inductive RankError
  | dimensionMismatch
  | emptyCorpus
  | invalidK
  deriving DecidableEq

/-- `rank` with an explicit error channel.  The Python ranking code can
raise none of the specification's errors: `zip`, list comprehension,
`sort` and slicing are all total, so the embedding always returns `ok`.
The error channel exists so that the specification's error-condition
claims can be stated and settled against the code. -/
def rank (corpus : List (List ℚ × String)) (qEmbed : List ℚ)
    (topK : Int) : Except RankError (List (ℚ × String)) :=
  Except.ok (rankScored corpus qEmbed topK)

/-- The payload projection `[text for _, text in scored[:top_k]]`
finishing `retrieve_relevant`. -/
def retrieveRelevant (corpus : List (List ℚ × String)) (qEmbed : List ℚ)
    (topK : Int) : List String :=
  (rankScored corpus qEmbed topK).map Prod.snd

/-- C1: for the corpus [([1,0,0],"a"), ([0,1,0],"b"), ([1,1,0],"c")],
query [1,1,0] and k = 2, the scores are a:1, b:1, c:2 and the ranking
returns exactly [("c",2), ("a",1)]: the a/b tie is broken in favour of a,
which appears earlier in the corpus. -/
theorem scenarioA_rank_eval :
    scoredOf [([1,0,0],"a"), ([0,1,0],"b"), ([1,1,0],"c")] [1,1,0]
      = [(1,"a"), (1,"b"), (2,"c")] ∧
    rank [([1,0,0],"a"), ([0,1,0],"b"), ([1,1,0],"c")] [1,1,0] 2
      = Except.ok [(2,"c"), (1,"a")] ∧
    retrieveRelevant [([1,0,0],"a"), ([0,1,0],"b"), ([1,1,0],"c")] [1,1,0] 2
      = ["c", "a"] := by
  refine ⟨by norm_num [scoredOf, dotProd], ?_, ?_⟩ <;>
    · norm_num [rank, retrieveRelevant, rankScored, scoredOf, dotProd,
        pySlice, scoreLe, List.insertionSort, List.orderedInsert]
      rfl

/-- Folding the product-accumulator from an arbitrary start value splits
off the start value: this is associativity of the left-to-right sum. -/
lemma dotFoldl_shift (l : List (ℚ × ℚ)) (c : ℚ) :
    l.foldl (fun acc p => acc + p.1 * p.2) c
      = c + l.foldl (fun acc p => acc + p.1 * p.2) 0 := by
  induction l generalizing c with
  | nil => simp
  | cons x l ih =>
    simp only [List.foldl_cons]
    rw [ih (c + x.1 * x.2), ih (0 + x.1 * x.2)]
    ring

/-- `_dot` on a pair of cons cells peels off the head product. -/
lemma dotProd_cons (x y : ℚ) (a b : List ℚ) :
    dotProd (x :: a) (y :: b) = x * y + dotProd a b := by
  simp only [dotProd, List.zip_cons_cons, List.foldl_cons]
  rw [dotFoldl_shift]
  ring

/-- `_dot` computes the sum of elementwise products over the first
`min (len a) (len b)` indices: Python's `zip` stops at the shorter list. -/
lemma dotProd_eq_sum_min (a b : List ℚ) :
    dotProd a b
      = ∑ i ∈ Finset.range (min a.length b.length), a.getD i 0 * b.getD i 0 := by
  induction a generalizing b with
  | nil => simp [dotProd]
  | cons x a ih =>
    cases b with
    | nil => simp [dotProd]
    | cons y b =>
      rw [dotProd_cons, ih b]
      simp only [List.length_cons, Nat.succ_min_succ, Finset.sum_range_succ',
        List.getD_cons_succ, List.getD_cons_zero]
      ring

/-- C10: for every pair of vectors `a` and `b`, of unequal lengths
included, `_dot a b` is the sum of the elementwise products over only the
first `min (len a) (len b)` indices — the longer vector's trailing
components are silently ignored, and no error is raised (`_dot` is a
total function). -/
theorem dot_truncated_zip_sum (a b : List ℚ) :
    dotProd a b
      = ∑ i ∈ Finset.range (min a.length b.length), a.getD i 0 * b.getD i 0 :=
  dotProd_eq_sum_min a b

/-- C8: for equal-length vectors the relevance score `_dot a b` is exactly
the dot product, the sum over all dimensions of the elementwise products,
with no normalization applied.  The definition of `dotProd` is the
left-to-right single-pass fold of the source; over ℚ this fold equals the
dimension-indexed sum. -/
theorem dot_eq_sum_of_length_eq (a b : List ℚ) (h : a.length = b.length) :
    dotProd a b = ∑ i ∈ Finset.range a.length, a.getD i 0 * b.getD i 0 := by
  rw [dotProd_eq_sum_min, h, min_self, ← h]

/-- Witness for C8 at a = [1,2], b = [3,4]: the score is 1·3 + 2·4 = 11. -/
theorem dot_eq_sum_of_length_eq_witness :
    dotProd [1, 2] [3, 4]
      = ∑ i ∈ Finset.range ([(1 : ℚ), 2].length),
          [(1 : ℚ), 2].getD i 0 * [(3 : ℚ), 4].getD i 0 :=
  dot_eq_sum_of_length_eq [1, 2] [3, 4] rfl

/-- Both branches of the Python slice are prefixes, so membership in the
slice implies membership in the sliced list. -/
lemma mem_pySlice {l : List α} {k : Int} {a : α} (h : a ∈ pySlice l k) :
    a ∈ l := by
  unfold pySlice at h
  split at h <;> exact List.mem_of_mem_take h

/-- C2 counterexample (Scenario C of the spec): for corpus [([1,2],"p")]
and query [1,2,3] the dimensionalities differ (2 vs 3), yet the code
raises no `DimensionMismatch`: `zip` silently truncates and the entry is
scored 1·1 + 2·2 = 5 over the common prefix. -/
theorem dimension_mismatch_not_raised :
    rank [([1,2],"p")] [1,2,3] 1 = Except.ok [(5,"p")] ∧
    rank [([1,2],"p")] [1,2,3] 1 ≠ Except.error RankError.dimensionMismatch := by
  constructor
  · norm_num [rank, rankScored, scoredOf, dotProd, pySlice, scoreLe,
      List.insertionSort, List.orderedInsert]
  · simp [rank]

/-- C2 amended: on any input, mismatched dimensionalities included, the
ranking never fails; every returned result carries the truncated-zip
score `_dot qEmbed e.1` of some corpus entry `e`. -/
theorem rank_never_fails_scores_truncated (corpus : List (List ℚ × String))
    (qEmbed : List ℚ) (k : Int) :
    ∃ rs, rank corpus qEmbed k = Except.ok rs ∧
      ∀ p ∈ rs, ∃ e ∈ corpus, p = (dotProd qEmbed e.1, e.2) := by
  refine ⟨rankScored corpus qEmbed k, rfl, ?_⟩
  intro p hp
  have h1 : p ∈ (scoredOf corpus qEmbed).insertionSort scoreLe :=
    mem_pySlice hp
  have h2 : p ∈ corpus.map (fun e => (dotProd qEmbed e.1, e.2)) :=
    (List.mem_insertionSort scoreLe).mp h1
  obtain ⟨e, he, hep⟩ := List.mem_map.mp h2
  exact ⟨e, he, hep.symm⟩

/-- C6 counterexample (Scenario D of the spec): on the empty corpus the
code raises no `EmptyCorpus`; it returns the empty result list. -/
theorem empty_corpus_not_raised :
    rank [] [1] 1 = Except.ok [] ∧
    rank [] [1] 1 ≠ Except.error RankError.emptyCorpus := by
  constructor
  · simp [rank, rankScored, scoredOf, pySlice, List.insertionSort]
  · simp [rank]

/-- C6 amended: for every query and every k, the ranking of the empty
corpus succeeds with the empty result list. -/
theorem rank_empty_corpus_ok_nil (qEmbed : List ℚ) (k : Int) :
    rank [] qEmbed k = Except.ok [] := by
  simp [rank, rankScored, scoredOf, pySlice, List.insertionSort]

/-- C7 counterexample: for k = 0 the code raises no `InvalidK`; the slice
`scored[:0]` is the empty list, so the call returns ok []. -/
theorem invalid_k_not_raised :
    rank [([1],"x")] [1] 0 = Except.ok [] ∧
    rank [([1],"x")] [1] 0 ≠ Except.error RankError.invalidK := by
  constructor
  · simp [rank, rankScored, scoredOf, dotProd, pySlice,
      List.insertionSort, List.orderedInsert]
  · simp [rank]

/-- C7 amended: for k ≤ 0 the ranking does not fail.  k = 0 returns the
empty list, and a negative k returns all but the last |k| ranked entries
(Python slice semantics, clamped at the empty list). -/
theorem rank_k_nonpos_ok (corpus : List (List ℚ × String)) (qEmbed : List ℚ)
    (k : Int) (hk : k ≤ 0) :
    ∃ rs, rank corpus qEmbed k = Except.ok rs ∧
      rs.length = if 0 ≤ k then 0 else corpus.length - (-k).toNat := by
  refine ⟨rankScored corpus qEmbed k, rfl, ?_⟩
  have hlen : ((scoredOf corpus qEmbed).insertionSort scoreLe).length
      = corpus.length := by
    rw [List.length_insertionSort]; simp [scoredOf]
  by_cases h : 0 ≤ k
  · have hk0 : k = 0 := le_antisymm hk h
    subst hk0
    simp [rankScored, pySlice]
  · simp only [rankScored, pySlice, if_neg h, List.length_take, hlen]
    exact Nat.min_eq_left (Nat.sub_le _ _)

/-- Witness for C7 amended at corpus of size 2 and k = −1: the slice
drops the last entry, leaving one result. -/
theorem rank_k_nonpos_ok_witness :
    ∃ rs, rank [([1],"a"), ([2],"b")] [1] (-1) = Except.ok rs ∧
      rs.length = if 0 ≤ (-1 : Int) then 0
        else [([(1:ℚ)],"a"), ([2],"b")].length - (-(-1 : Int)).toNat :=
  rank_k_nonpos_ok [([1],"a"), ([2],"b")] [1] (-1) (by norm_num)

/-- C9: the ranking is deterministic — it is a pure function of the
corpus, the query embedding and k, so two calls on identical inputs
return identical output.  The source's `scored.sort` mutates only the
freshly built `scored` list; the corpus is read, never written. -/
theorem rank_deterministic (c₁ c₂ : List (List ℚ × String))
    (q₁ q₂ : List ℚ) (k₁ k₂ : Int)
    (hc : c₁ = c₂) (hq : q₁ = q₂) (hk : k₁ = k₂) :
    rank c₁ q₁ k₁ = rank c₂ q₂ k₂ := by
  subst hc; subst hq; subst hk; rfl

/-- Witness for C9 at a concrete call. -/
theorem rank_deterministic_witness :
    rank [([1],"x")] [2] 1 = rank [([1],"x")] [2] 1 :=
  rank_deterministic [([1],"x")] [([1],"x")] [2] [2] 1 1 rfl rfl rfl

/-- The sorted scored list has one element per corpus entry. -/
lemma length_insertionSort_scoredOf (corpus : List (List ℚ × String))
    (qEmbed : List ℚ) :
    ((scoredOf corpus qEmbed).insertionSort scoreLe).length = corpus.length := by
  rw [List.length_insertionSort]; simp [scoredOf]

/-- C3: for every non-empty corpus of n entries, matching query
dimensionality and k ≥ 1, the ranking succeeds and returns exactly
min(k, n) scored results; in particular k > n returns all n entries with
no error. -/
theorem rank_length_min_k_n (corpus : List (List ℚ × String))
    (qEmbed : List ℚ) (k : Int)
    (hne : corpus ≠ [])
    (hdim : ∀ e ∈ corpus, (e : List ℚ × String).1.length = qEmbed.length)
    (hk : 1 ≤ k) :
    ∃ rs, rank corpus qEmbed k = Except.ok rs ∧
      rs.length = min k.toNat corpus.length := by
  refine ⟨rankScored corpus qEmbed k, rfl, ?_⟩
  have h0 : (0 : Int) ≤ k := le_trans (by norm_num) hk
  simp only [rankScored, pySlice, if_pos h0, List.length_take,
    length_insertionSort_scoredOf]

/-- Witness for C3 at a one-entry corpus with k = 3: one result,
k clamped to the corpus size. -/
theorem rank_length_min_k_n_witness :
    ∃ rs, rank [([1],"x")] [2] 3 = Except.ok rs ∧
      rs.length = min (3 : Int).toNat [([(1:ℚ)],"x")].length := by
  refine rank_length_min_k_n [([1],"x")] [2] 3 (by simp) ?_ (by norm_num)
  intro e he
  rw [List.mem_singleton] at he
  subst he
  rfl

/-- C4: for every valid input the scores of the returned sequence are
monotonically non-increasing: each result's score is at least the next
one's. -/
theorem rank_scores_antitone (corpus : List (List ℚ × String))
    (qEmbed : List ℚ) (k : Int) (rs : List (ℚ × String))
    (hne : corpus ≠ [])
    (hdim : ∀ e ∈ corpus, (e : List ℚ × String).1.length = qEmbed.length)
    (hk : 1 ≤ k)
    (hrk : rank corpus qEmbed k = Except.ok rs) :
    ∀ i (h : i + 1 < rs.length),
      (rs.get ⟨i + 1, h⟩).1 ≤ (rs.get ⟨i, Nat.lt_of_succ_lt h⟩).1 := by
  simp only [rank, Except.ok.injEq] at hrk
  subst hrk
  have hsorted : ((scoredOf corpus qEmbed).insertionSort scoreLe).Pairwise scoreLe :=
    List.sorted_insertionSort scoreLe _
  have hsub : List.Sublist (rankScored corpus qEmbed k)
      ((scoredOf corpus qEmbed).insertionSort scoreLe) := by
    unfold rankScored pySlice
    split <;> exact List.take_sublist _ _
  have hpw : (rankScored corpus qEmbed k).Pairwise scoreLe :=
    List.Pairwise.sublist hsub hsorted
  intro i h
  exact List.pairwise_iff_get.mp hpw ⟨i, Nat.lt_of_succ_lt h⟩ ⟨i + 1, h⟩
    (by exact Nat.lt_succ_self i)

/-- Witness for C4 at corpus [([1],"x"), ([2],"y")], query [1], k = 2:
the output is [(2,"y"), (1,"x")] and the second score is at most the
first. -/
theorem rank_scores_antitone_witness :
    ([((2:ℚ),"y"), (1,"x")].get ⟨1, by norm_num⟩).1
      ≤ ([((2:ℚ),"y"), (1,"x")].get ⟨0, by norm_num⟩).1 :=
  rank_scores_antitone [([1],"x"), ([2],"y")] [1] 2 [(2,"y"), (1,"x")]
    (by simp)
    (by
      intro e he
      rw [List.mem_cons, List.mem_singleton] at he
      rcases he with he | he <;> subst he <;> rfl)
    (by norm_num)
    (by
      norm_num [rank, rankScored, scoredOf, dotProd, pySlice, scoreLe,
        List.insertionSort, List.orderedInsert])
    0 (by norm_num)

/-- C5: the sort is stable on ties, for every valid input.  If entries a
and b receive exactly equal scores and a appears earlier in the corpus
than b, their scored results occupy positions p₁ < p₂ of the full ranking
(the untruncated stable sort), and for any requested k, whenever b's
position survives the top-k truncation, both results appear in the output
at those same positions — a's before b's. -/
theorem rank_stable_on_ties (l₁ l₂ l₃ : List (List ℚ × String))
    (a b : List ℚ × String) (qEmbed : List ℚ) (k : Int)
    (rs : List (ℚ × String))
    (hEq : dotProd qEmbed a.1 = dotProd qEmbed b.1)
    (hk : 1 ≤ k)
    (hrk : rank (l₁ ++ a :: l₂ ++ b :: l₃) qEmbed k = Except.ok rs) :
    ∃ p₁ p₂ : ℕ, p₁ < p₂ ∧
      (rankScored (l₁ ++ a :: l₂ ++ b :: l₃) qEmbed
          (((l₁ ++ a :: l₂ ++ b :: l₃).length : ℕ) : Int)).get? p₁
        = some (dotProd qEmbed a.1, a.2) ∧
      (rankScored (l₁ ++ a :: l₂ ++ b :: l₃) qEmbed
          (((l₁ ++ a :: l₂ ++ b :: l₃).length : ℕ) : Int)).get? p₂
        = some (dotProd qEmbed b.1, b.2) ∧
      (p₂ < rs.length →
        rs.get? p₁ = some (dotProd qEmbed a.1, a.2) ∧
        rs.get? p₂ = some (dotProd qEmbed b.1, b.2)) := by
  simp only [rank, Except.ok.injEq] at hrk
  subst hrk
  have hscored : scoredOf (l₁ ++ a :: l₂ ++ b :: l₃) qEmbed
      = l₁.map (fun e => (dotProd qEmbed e.1, e.2))
        ++ (dotProd qEmbed a.1, a.2)
          :: l₂.map (fun e => (dotProd qEmbed e.1, e.2))
        ++ (dotProd qEmbed b.1, b.2)
          :: l₃.map (fun e => (dotProd qEmbed e.1, e.2)) := by
    simp [scoredOf]
  have hsub : List.Sublist
      [(dotProd qEmbed a.1, a.2), (dotProd qEmbed b.1, b.2)]
      (scoredOf (l₁ ++ a :: l₂ ++ b :: l₃) qEmbed) := by
    rw [hscored]
    have ha : List.Sublist [(dotProd qEmbed a.1, a.2)]
        (l₁.map (fun e => (dotProd qEmbed e.1, e.2))
          ++ (dotProd qEmbed a.1, a.2)
            :: l₂.map (fun e => (dotProd qEmbed e.1, e.2))) :=
      (List.Sublist.cons₂ _ (List.nil_sublist _)).trans
        (List.sublist_append_right _ _)
    have hb : List.Sublist [(dotProd qEmbed b.1, b.2)]
        ((dotProd qEmbed b.1, b.2)
          :: l₃.map (fun e => (dotProd qEmbed e.1, e.2))) :=
      List.Sublist.cons₂ _ (List.nil_sublist _)
    exact List.Sublist.append ha hb
  have hpair : List.Pairwise scoreLe
      [(dotProd qEmbed a.1, a.2), (dotProd qEmbed b.1, b.2)] :=
    List.pairwise_pair.mpr hEq.ge
  have hstab : List.Sublist
      [(dotProd qEmbed a.1, a.2), (dotProd qEmbed b.1, b.2)]
      ((scoredOf (l₁ ++ a :: l₂ ++ b :: l₃) qEmbed).insertionSort scoreLe) :=
    List.sublist_insertionSort hpair hsub
  have hfull : rankScored (l₁ ++ a :: l₂ ++ b :: l₃) qEmbed
      (((l₁ ++ a :: l₂ ++ b :: l₃).length : ℕ) : Int)
      = (scoredOf (l₁ ++ a :: l₂ ++ b :: l₃) qEmbed).insertionSort scoreLe := by
    unfold rankScored pySlice
    rw [if_pos (Int.natCast_nonneg _), Int.toNat_natCast,
      List.take_of_length_le (le_of_eq (length_insertionSort_scoredOf _ _))]
  obtain ⟨f, hf⟩ :=
    List.sublist_iff_exists_fin_orderEmbedding_get_eq.mp hstab
  have hchain : ((f ⟨0, by simp⟩ : Fin _) : ℕ) < ((f ⟨1, by simp⟩ : Fin _) : ℕ) :=
    f.lt_iff_lt.mpr (Fin.mk_lt_mk.mpr Nat.zero_lt_one)
  have hrs : rankScored (l₁ ++ a :: l₂ ++ b :: l₃) qEmbed k
      = ((scoredOf (l₁ ++ a :: l₂ ++ b :: l₃) qEmbed).insertionSort scoreLe).take
          k.toNat := by
    unfold rankScored pySlice
    rw [if_pos (le_trans (by norm_num) hk)]
  refine ⟨((f ⟨0, by simp⟩ : Fin _) : ℕ), ((f ⟨1, by simp⟩ : Fin _) : ℕ),
    hchain, ?_, ?_, ?_⟩
  · rw [hfull, List.get?_eq_get (f ⟨0, by simp⟩).isLt]
    exact congrArg some (hf ⟨0, by simp⟩).symm
  · rw [hfull, List.get?_eq_get (f ⟨1, by simp⟩).isLt]
    exact congrArg some (hf ⟨1, by simp⟩).symm
  · intro h₂
    rw [hrs, List.length_take] at h₂
    have h₂k : ((f ⟨1, by simp⟩ : Fin _) : ℕ) < k.toNat :=
      lt_of_lt_of_le h₂ (min_le_left _ _)
    constructor
    · rw [hrs, List.get?_take (lt_trans hchain h₂k),
        List.get?_eq_get (f ⟨0, by simp⟩).isLt]
      exact congrArg some (hf ⟨0, by simp⟩).symm
    · rw [hrs, List.get?_take h₂k,
        List.get?_eq_get (f ⟨1, by simp⟩).isLt]
      exact congrArg some (hf ⟨1, by simp⟩).symm

/-- Witness for C5: corpus [([1,0],"a"), ([0,1],"b"), ([0,0],"c")], query
[1,1], k = 2 (a truncating k: 1 ≤ k < 3).  Entries a and b tie at score 1,
c scores 0 and is cut; a and b both survive the top-2 truncation and a,
first in the corpus, stays first in the output. -/
theorem rank_stable_on_ties_witness :
    ∃ p₁ p₂ : ℕ, p₁ < p₂ ∧
      (rankScored [([1,0],"a"), ([0,1],"b"), ([0,0],"c")] [1,1]
          (([([(1:ℚ),0],"a"), ([0,1],"b"), ([0,0],"c")].length : ℕ) : Int)).get? p₁
        = some (dotProd [1,1] [1,0], "a") ∧
      (rankScored [([1,0],"a"), ([0,1],"b"), ([0,0],"c")] [1,1]
          (([([(1:ℚ),0],"a"), ([0,1],"b"), ([0,0],"c")].length : ℕ) : Int)).get? p₂
        = some (dotProd [1,1] [0,1], "b") ∧
      (p₂ < [((1:ℚ),"a"), (1,"b")].length →
        [((1:ℚ),"a"), (1,"b")].get? p₁ = some (dotProd [1,1] [1,0], "a") ∧
        [((1:ℚ),"a"), (1,"b")].get? p₂ = some (dotProd [1,1] [0,1], "b")) :=
  rank_stable_on_ties [] [] [([0,0],"c")] ([1,0],"a") ([0,1],"b") [1,1] 2
    [(1,"a"), (1,"b")]
    (by norm_num [dotProd])
    (by norm_num)
    (by
      norm_num [rank, rankScored, scoredOf, dotProd, pySlice, scoreLe,
        List.insertionSort, List.orderedInsert]
      rfl)
